import Mathlib

/-
Verification development for the supplier performance dashboard
(src/supplier_dashboard.py).  The pipeline is shallowly embedded:
numeric cell values are rationals, missing values (pandas NaN) are
modelled with Option, and each stage of the script becomes an
executable Lean function that mirrors the corresponding pandas code.
-/

set_option maxHeartbeats 1000000
set_option linter.unnecessarySeqFocus false

/-! Basic string utilities (ASCII case folding and stripping, matching
the behaviour of str.lower / str.strip on the labels that occur in the
dashboard's data). -/

/-- ASCII lower-casing of a single character, as used by the
case-insensitive matching in the script. -/
def lowerChar (c : Char) : Char :=
  if 65 ≤ c.toNat ∧ c.toNat ≤ 90 then Char.ofNat (c.toNat + 32) else c

/-- Lower-case a string into its character list. -/
def lowerChars (s : String) : List Char := s.toList.map lowerChar

/-- Lower-case a string (models str.lower on the ASCII labels used). -/
def toLowerStr (s : String) : String := String.mk (lowerChars s)

/-- Whitespace test used by the strip model. -/
def isSpaceChar (c : Char) : Bool :=
  c == ' ' || c == '\t' || c == '\n' || c == '\r'

/-- Models str.strip: drop leading and trailing whitespace. -/
def stripStr (s : String) : String :=
  String.mk (((s.toList.dropWhile isSpaceChar).reverse.dropWhile isSpaceChar).reverse)

/-- Boolean prefix test on character lists. -/
def isPrefixB : List Char → List Char → Bool
  | [], _ => true
  | _ :: _, [] => false
  | a :: as1, b :: bs1 => a == b && isPrefixB as1 bs1

/-- Boolean substring test on character lists: pat occurs inside s. -/
def containsSub (pat : List Char) : List Char → Bool
  | [] => isPrefixB pat []
  | c :: rest => isPrefixB pat (c :: rest) || containsSub pat rest

/-! Header Locator (src/supplier_dashboard.py lines 31-40).
The script scans rows 0 .. min(5, len(df)) - 1 of the raw grid and
returns the first row whose cells contain the substring Vendor,
case-insensitively; if none is found it stops with an error. -/

/-- Character pattern for the marker column, already lower-cased. -/
def vendorPat : List Char := ['v', 'e', 'n', 'd', 'o', 'r']

/-- Models Series.str.contains with case=False for the fixed pattern:
lower-case the cell text and look for the substring vendor. -/
def cellHasVendor (s : String) : Bool := containsSub vendorPat (lowerChars s)

/-- A raw row matches when any of its cells contains the marker. -/
def rowHasVendor (row : List String) : Bool := row.any cellHasVendor

/-- Models the header-search loop: first index i < min 5 rowCount whose
row matches, none otherwise.  Rows are read with getD, matching iloc. -/
def findHeaderRow (g : List (List String)) : Option Nat :=
  (List.range (min 5 g.length)).find? (fun i => rowHasVendor (g.getD i []))

/-- Models the header-location step of load_data including its failure:
the script raises a fatal error (st.error + st.stop) when no header row
is found, which we embed as an Except error value. -/
def locateHeader (g : List (List String)) : Except String Nat :=
  match findHeaderRow g with
  | some i => Except.ok i
  | none => Except.error ("HeaderNotFound")

/-! Schema Normalizer (src/supplier_dashboard.py lines 43-58).
Column labels from the located header row are stripped of surrounding
whitespace and then renamed through a case-insensitive synonym table;
labels without an entry are kept as-is. -/

/-- The rename_map dictionary of load_data, keys already lower-case. -/
def renameMap : List (String × String) :=
  [("vendor name", "Vendor"), ("vendor", "Vendor"),
   ("vendor no.", "Vendor No"), ("order no.", "Order"),
   ("item no.", "Item No"), ("item description", "Item"),
   ("item cost", "Item Cost"), ("quantity", "Quantity"),
   ("cost per order", "Cost per order"), ("a/p terms", "AP Terms"),
   ("order date", "Order Date"), ("arrival date", "Arrival Date")]

/-- Dictionary lookup in the synonym table. -/
def lookupRename (k : String) : Option String :=
  (renameMap.find? (fun p => p.1 == k)).map (fun p => p.2)

/-- Models rename_map.get(x.lower(), x): look the lower-cased label up,
keep the label itself when absent. -/
def renameColumn (c : String) : String := (lookupRename (toLowerStr c)).getD c

/-- The canonical field names produced by the normalizer (the distinct
values of rename_map). -/
def canonicalNames : List String :=
  ["Vendor", "Vendor No", "Order", "Item No", "Item", "Item Cost",
   "Quantity", "Cost per order", "AP Terms", "Order Date", "Arrival Date"]

/-- The renaming step applied to a header row: strip each label, then
apply the synonym table (lines 43, 57 and 58 of the script). -/
def normalizeHeader (hdr : List String) : List String :=
  hdr.map (fun c => renameColumn (stripStr c))

/-! Derived-Field Calculator (src/supplier_dashboard.py lines 69-75).
When both date columns exist, Lead Time is the whole-day difference of
the two dates (missing when either date is missing), and negative
results are overwritten with missing.  When either date column is
absent, no Lead Time column is produced at all.  Dates are modelled as
day numbers in Int; a missing column is the none of the outer Option. -/

structure LoadRow where
  orderDate : Option Int
  arrivalDate : Option Int
deriving DecidableEq

/-- Per-record lead time: arrival minus order in whole days, with
negative values replaced by missing (lines 72 and 75). -/
def computeLeadTime (arrival orderD : Option Int) : Option Int :=
  match arrival, orderD with
  | some a, some o => if a - o < 0 then none else some (a - o)
  | _, _ => none

/-- The Lead Time column of load_data: present (some) only when both
date columns are present (line 69), absent (none) otherwise. -/
def deriveLeadColumn (hasOD hasAD : Bool) (rows : List LoadRow) : Option (List (Option Int)) :=
  if hasOD && hasAD then
    some (rows.map (fun r => computeLeadTime r.arrivalDate r.orderDate))
  else none

/-! Canonical records and datasets.  A Record is one normalized data
row; missing cells (pandas NaN) are none.  A Dataset carries the rows
together with column-presence flags for the three numeric metric
columns, mirroring the script's "if col in df.columns" branching. -/

structure Record where
  vendor : Option String
  order : Option String
  item : Option String
  leadTime : Option Rat
  apTerms : Option Rat
  itemCost : Option Rat
deriving DecidableEq

structure Dataset where
  recs : List Record
  hasLead : Bool
  hasAP : Bool
  hasCost : Bool
deriving DecidableEq

/-! Numeric range filters (src/supplier_dashboard.py lines 161-168).
Each active slider keeps the rows with lo <= value <= hi.  A missing
value compares false on both sides in pandas (NaN comparisons are
false), so such rows are dropped; the none branch below models that. -/

def rangeFilter (f : Record → Option Rat) (lo hi : Rat) (recs : List Record) : List Record :=
  recs.filter (fun r =>
    match f r with
    | some v => decide (lo ≤ v) && decide (v ≤ hi)
    | none => false)

/-! Vendor grouping (pandas groupby sorts the distinct non-null keys;
records with a missing key are dropped).  Sorting is code-point
lexicographic, as in Python. -/

def charsLe : List Char → List Char → Bool
  | [], _ => true
  | _ :: _, [] => false
  | a :: as1, b :: bs1 =>
    if a.toNat < b.toNat then true
    else if b.toNat < a.toNat then false
    else charsLe as1 bs1

def strLeB (a b : String) : Bool := charsLe a.toList b.toList

def insertSorted (v : String) : List String → List String
  | [] => [v]
  | w :: ws => if strLeB v w then v :: w :: ws else w :: insertSorted v ws

def sortStrings (l : List String) : List String := l.foldr insertSorted []

/-- First-occurrence deduplication (models pandas unique, which keeps
the order of first appearance). -/
def dedupFirstAux (seen : List String) : List String → List String
  | [] => []
  | x :: xs => if x ∈ seen then dedupFirstAux seen xs else x :: dedupFirstAux (x :: seen) xs

def dedupFirst (l : List String) : List String := dedupFirstAux [] l

/-- The group keys of groupby("Vendor"): distinct non-null vendors in
sorted order.  Rows whose vendor is missing contribute no key. -/
def vendorKeys (recs : List Record) : List String :=
  sortStrings (dedupFirst (recs.filterMap Record.vendor))

/-- The rows of one vendor group. -/
def groupOf (recs : List Record) (v : String) : List Record :=
  recs.filter (fun r => r.vendor == some v)

/-- Pandas mean aggregation: average of the non-missing values, missing
(NaN) when the group has no value at all. -/
def meanOpt (xs : List (Option Rat)) : Option Rat :=
  match xs.filterMap id with
  | [] => none
  | v :: vs => some ((v :: vs).sum / ((v :: vs).length : Rat))

/-- The three averaged metric columns of one group, in the order lead,
cost, AP.  A column absent from the dataset is synthesized as constant
zero afterwards (the "Adiciona colunas ausentes" loops), which is what
the else branches model. -/
def avgTriple (ds : Dataset) (g : List Record) : Option Rat × Option Rat × Option Rat :=
  (if ds.hasLead then meanOpt (g.map Record.leadTime) else some 0,
   if ds.hasCost then meanOpt (g.map Record.itemCost) else some 0,
   if ds.hasAP then meanOpt (g.map Record.apTerms) else some 0)

/-! Metric Aggregator (src/supplier_dashboard.py lines 255-282): one
summary row per vendor.  The Orders column comes from the pandas count
aggregation over the Order column, which counts the non-null entries of
that column within the group. -/

structure MetricsRow where
  vendor : String
  orders : Nat
  avgLead : Option Rat
  avgCost : Option Rat
  avgAP : Option Rat
deriving DecidableEq

def aggRow (ds : Dataset) (v : String) : MetricsRow :=
  { vendor := v
  , orders := ((groupOf ds.recs v).filter (fun r => r.order.isSome)).length
  , avgLead := (avgTriple ds (groupOf ds.recs v)).1
  , avgCost := (avgTriple ds (groupOf ds.recs v)).2.1
  , avgAP := (avgTriple ds (groupOf ds.recs v)).2.2 }

def metrics (ds : Dataset) : List MetricsRow := (vendorKeys ds.recs).map (aggRow ds)

/-! Composite Scorer (src/supplier_dashboard.py lines 86-114,
add_composite).  Column min and max skip missing values; the comparison
max > min is false when either side is NaN, in which case the whole
normalized column is set to the scalar 0.  A normalized entry of a
missing value stays missing, and a composite mixing in a missing term
is missing. -/

def colMinO : List (Option Rat) → Option Rat
  | [] => none
  | none :: xs => colMinO xs
  | some v :: xs =>
    match colMinO xs with
    | none => some v
    | some w => some (min v w)

def colMaxO : List (Option Rat) → Option Rat
  | [] => none
  | none :: xs => colMaxO xs
  | some v :: xs =>
    match colMaxO xs with
    | none => some v
    | some w => some (max v w)

def normColumnO (present : Bool) (xs : List (Option Rat)) : List (Option Rat) :=
  if present then
    match colMinO xs, colMaxO xs with
    | some mn, some mx =>
      if mn < mx then xs.map (Option.map (fun v => (v - mn) / (mx - mn)))
      else xs.map (fun _ => some 0)
    | _, _ => xs.map (fun _ => some 0)
  else xs.map (fun _ => some 0)

/-- One composite score from the three normalized terms (line 112):
0.4 * (1 - norm lead) + 0.4 * (1 - norm cost) + 0.2 * norm AP. -/
def comp3 : Option Rat → Option Rat × Option Rat → Option Rat
  | some nl, (some nc, some na) =>
    some ((1 - nl) * (2 / 5) + (1 - nc) * (2 / 5) + na * (1 / 5))
  | _, _ => none

/-- add_composite on the three metric columns of a summary table,
returning the Composite_Score column. -/
def compositeOfCols (hasL hasC hasA : Bool) (ls cs aps : List (Option Rat)) : List (Option Rat) :=
  List.zipWith comp3 (normColumnO hasL ls) ((normColumnO hasC cs).zip (normColumnO hasA aps))

/-- The Composite_Score column of the per-vendor summary of section 2
(line 282): add_composite applied to the metrics table, whose three
metric columns always exist after the fill-with-zero loop. -/
def metricsComposites (ds : Dataset) : List (Option Rat) :=
  compositeOfCols true true true
    ((metrics ds).map MetricsRow.avgLead)
    ((metrics ds).map MetricsRow.avgCost)
    ((metrics ds).map MetricsRow.avgAP)

/-! Scorer definitions written from the words of spec section 4.5, used
only to compare the source scorer against the spec formula (claim C2):
norm = (value - min) / (max - min) when max > min, else 0 uniformly;
composite = 0.4 * (1 - norm lead) + 0.4 * (1 - norm cost) + 0.2 * norm AP. -/

def colMinQ : List Rat → Rat
  | [] => 0
  | x :: xs => xs.foldl min x

def colMaxQ : List Rat → Rat
  | [] => 0
  | x :: xs => xs.foldl max x

/-- Modelled from the spec (section 4.5): min-max normalization of one
value against its column. -/
def specNorm (xs : List Rat) (v : Rat) : Rat :=
  if colMinQ xs < colMaxQ xs then (v - colMinQ xs) / (colMaxQ xs - colMinQ xs) else 0

/-- Modelled from the spec (section 4.5): the weighted composite of row
i of a summary table with columns ls, cs, aps. -/
def specComposite (ls cs aps : List Rat) (i : Nat) : Rat :=
  (1 - specNorm ls (ls.getD i 0)) * (2 / 5) + (1 - specNorm cs (cs.getD i 0)) * (2 / 5)
    + specNorm aps (aps.getD i 0) * (1 / 5)

/-! Best-of-Group Selector (src/supplier_dashboard.py lines 318-362).
For every distinct non-null product value (in first-appearance order)
the rows of that product are aggregated by vendor, scored, and when the
summary is non-empty the vendor at the first index attaining the
maximal composite (Series.idxmax) gets one win.  Series.idxmax skips
missing scores and fails when every score is missing; that failure is
the none of the outer Option below, and some none is a partition that
contributes no win. -/

def distinctItems (recs : List Record) : List String := dedupFirst (recs.filterMap Record.item)

def itemGroup (recs : List Record) (itm : String) : List Record :=
  recs.filter (fun r => r.item == some itm)

def partitionSummary (ds : Dataset) (itm : String) : List (String × (Option Rat × Option Rat × Option Rat)) :=
  (vendorKeys (itemGroup ds.recs itm)).map
    (fun v => (v, avgTriple ds (groupOf (itemGroup ds.recs itm) v)))

def partitionComposites (ds : Dataset) (itm : String) : List (Option Rat) :=
  compositeOfCols true true true
    ((partitionSummary ds itm).map (fun p => p.2.1))
    ((partitionSummary ds itm).map (fun p => p.2.2.1))
    ((partitionSummary ds itm).map (fun p => p.2.2.2))

/-- Models Series.idxmax: index of the first maximal non-missing value,
none when no value is present. -/
def idxmaxOAux : List (Option Rat) → Nat → Option (Nat × Rat) → Option Nat
  | [], _, none => none
  | [], _, some p => some p.1
  | none :: xs, i, acc => idxmaxOAux xs (i + 1) acc
  | some x :: xs, i, none => idxmaxOAux xs (i + 1) (some (i, x))
  | some x :: xs, i, some (j, m) =>
    if m < x then idxmaxOAux xs (i + 1) (some (i, x))
    else idxmaxOAux xs (i + 1) (some (j, m))

def idxmaxO (xs : List (Option Rat)) : Option Nat := idxmaxOAux xs 0 none

/-- The winner of one product partition: some (some v) when vendor v
wins, some none when the summary is empty (no win recorded), none when
idxmax fails because every score is missing (a runtime error in the
script). -/
def partitionWinner (ds : Dataset) (itm : String) : Option (Option String) :=
  if 0 < (partitionSummary ds itm).length then
    match idxmaxO (partitionComposites ds itm) with
    | some i => some (some ((partitionSummary ds itm).getD i ("", none, none, none)).1)
    | none => none
  else some none

/-- Dictionary increment wins[winner] = wins.get(winner, 0) + 1 on an
insertion-ordered association list, as a Python dict behaves. -/
def bump : List (String × Nat) → String → List (String × Nat)
  | [], v => [(v, 1)]
  | (w, n) :: t, v => if w = v then (w, n + 1) :: t else (w, n) :: bump t v

def winsStep (ds : Dataset) (acc : Option (List (String × Nat))) (itm : String) :
    Option (List (String × Nat)) :=
  match acc with
  | none => none
  | some t =>
    match partitionWinner ds itm with
    | none => none
    | some none => some t
    | some (some v) => some (bump t v)

/-- The full win tally of section 3; none when some partition made
idxmax fail. -/
def winsTally (ds : Dataset) : Option (List (String × Nat)) :=
  (distinctItems ds.recs).foldl (winsStep ds) (some [])

def tallyTotal (t : List (String × Nat)) : Nat := (t.map (fun p => p.2)).sum

/-- A partition is counted by claim C8 when its restricted summary is
non-empty and its composite column has a maximum to select. -/
def scoreableB (ds : Dataset) (itm : String) : Bool :=
  decide (partitionSummary ds itm ≠ []) && (idxmaxO (partitionComposites ds itm)).isSome

/-! Concrete inputs used by the example claims, counterexamples and
witnesses. -/

def recA : Record :=
  { vendor := some ("A"), order := some ("o1"), item := some ("P"),
    leadTime := some 5, apTerms := some 30, itemCost := some 10 }

def recB : Record :=
  { vendor := some ("B"), order := some ("o2"), item := some ("P"),
    leadTime := some 10, apTerms := some 60, itemCost := some 5 }

def dsAB : Dataset :=
  { recs := [recA, recB], hasLead := true, hasAP := true, hasCost := true }

def dsSolo : Dataset :=
  { recs := [recA], hasLead := true, hasAP := true, hasCost := true }

/-- One record whose order identifier is missing, for claim C5. -/
def recNoOrder : Record :=
  { vendor := some ("A"), order := none, item := some ("P"),
    leadTime := some 5, apTerms := some 30, itemCost := some 10 }

def dsNoOrder : Dataset :=
  { recs := [recNoOrder], hasLead := true, hasAP := true, hasCost := true }

/-- One record whose lead time is missing, for claim C10. -/
def recNoLead : Record :=
  { vendor := some ("A"), order := some ("o1"), item := some ("P"),
    leadTime := none, apTerms := some 30, itemCost := some 10 }

/-! Helper lemmas about find? over an index range. -/

theorem find?_range'_spec (p : Nat → Bool) :
    ∀ (n s i : Nat), (List.range' s n).find? p = some i →
      s ≤ i ∧ i < s + n ∧ p i = true ∧ ∀ j, s ≤ j → j < i → p j = false := by
  intro n
  induction n with
  | zero => intro s i h; simp [List.range'] at h
  | succ m ih =>
    intro s i h
    rw [List.range'_succ] at h
    by_cases hp : p s
    · rw [List.find?_cons_of_pos _ hp] at h
      obtain rfl : s = i := by injection h
      refine ⟨le_refl _, by omega, hp, ?_⟩
      intro j h1 h2; omega
    · rw [List.find?_cons_of_neg _ hp] at h
      obtain ⟨h1, h2, h3, h4⟩ := ih (s + 1) i h
      refine ⟨by omega, by omega, h3, ?_⟩
      intro j hj1 hj2
      rcases Nat.eq_or_lt_of_le hj1 with rfl | hlt
      · exact eq_false_of_ne_true hp
      · exact h4 j hlt hj2

theorem find?_range_spec (p : Nat → Bool) (n i : Nat)
    (h : (List.range n).find? p = some i) :
    i < n ∧ p i = true ∧ ∀ j, j < i → p j = false := by
  rw [List.range_eq_range'] at h
  obtain ⟨_, h2, h3, h4⟩ := find?_range'_spec p n 0 i h
  exact ⟨by omega, h3, fun j hj => h4 j (Nat.zero_le j) hj⟩

theorem find?_range_none (p : Nat → Bool) (n : Nat)
    (h : (List.range n).find? p = none) :
    ∀ j, j < n → p j = false := by
  intro j hj
  have := List.find?_eq_none.mp h j (List.mem_range.mpr hj)
  exact eq_false_of_ne_true this

/-! Helper lemmas about the column minimum and maximum (skipping
missing entries). -/

theorem colMinO_isSome {xs : List (Option Rat)} {a : Rat} (h : some a ∈ xs) :
    (colMinO xs).isSome = true := by
  induction xs with
  | nil => cases h
  | cons x t ih =>
    cases x with
    | none =>
      rcases List.mem_cons.mp h with h1 | h1
      · exact absurd h1 (by simp)
      · simpa [colMinO] using ih h1
    | some v =>
      simp only [colMinO]
      cases colMinO t <;> simp

theorem colMaxO_isSome {xs : List (Option Rat)} {a : Rat} (h : some a ∈ xs) :
    (colMaxO xs).isSome = true := by
  induction xs with
  | nil => cases h
  | cons x t ih =>
    cases x with
    | none =>
      rcases List.mem_cons.mp h with h1 | h1
      · exact absurd h1 (by simp)
      · simpa [colMaxO] using ih h1
    | some v =>
      simp only [colMaxO]
      cases colMaxO t <;> simp

theorem colMinO_le : ∀ {xs : List (Option Rat)} {m a : Rat},
    colMinO xs = some m → some a ∈ xs → m ≤ a := by
  intro xs
  induction xs with
  | nil => intro m a _ ha; cases ha
  | cons x t ih =>
    intro m a h ha
    cases x with
    | none =>
      simp only [colMinO] at h
      rcases List.mem_cons.mp ha with h1 | h1
      · exact absurd h1 (by simp)
      · exact ih h h1
    | some v =>
      simp only [colMinO] at h
      rcases List.mem_cons.mp ha with h1 | h1
      · obtain rfl : a = v := by injection h1
        cases hm : colMinO t with
        | none =>
          rw [hm] at h
          simp at h
          exact le_of_eq h.symm
        | some w =>
          rw [hm] at h
          obtain rfl : min a w = m := by injection h
          exact min_le_left _ _
      · cases hm : colMinO t with
        | none =>
          have := colMinO_isSome h1
          rw [hm] at this
          exact absurd this (by simp)
        | some w =>
          rw [hm] at h
          obtain rfl : min v w = m := by injection h
          exact le_trans (min_le_right _ _) (ih hm h1)

theorem colMaxO_ge : ∀ {xs : List (Option Rat)} {m a : Rat},
    colMaxO xs = some m → some a ∈ xs → a ≤ m := by
  intro xs
  induction xs with
  | nil => intro m a _ ha; cases ha
  | cons x t ih =>
    intro m a h ha
    cases x with
    | none =>
      simp only [colMaxO] at h
      rcases List.mem_cons.mp ha with h1 | h1
      · exact absurd h1 (by simp)
      · exact ih h h1
    | some v =>
      simp only [colMaxO] at h
      rcases List.mem_cons.mp ha with h1 | h1
      · obtain rfl : a = v := by injection h1
        cases hm : colMaxO t with
        | none =>
          rw [hm] at h
          simp at h
          exact le_of_eq h
        | some w =>
          rw [hm] at h
          obtain rfl : max a w = m := by injection h
          exact le_max_left _ _
      · cases hm : colMaxO t with
        | none =>
          have := colMaxO_isSome h1
          rw [hm] at this
          exact absurd this (by simp)
        | some w =>
          rw [hm] at h
          obtain rfl : max v w = m := by injection h
          exact le_trans (ih hm h1) (le_max_right _ _)

theorem colMinO_mem : ∀ {xs : List (Option Rat)} {m : Rat},
    colMinO xs = some m → some m ∈ xs := by
  intro xs
  induction xs with
  | nil => intro m h; exact absurd h (by simp [colMinO])
  | cons x t ih =>
    intro m h
    cases x with
    | none =>
      simp only [colMinO] at h
      exact List.mem_cons_of_mem _ (ih h)
    | some v =>
      simp only [colMinO] at h
      cases hm : colMinO t with
      | none =>
        rw [hm] at h
        obtain rfl : v = m := by injection h
        exact List.mem_cons_self _ _
      | some w =>
        rw [hm] at h
        obtain rfl : min v w = m := by injection h
        rcases min_choice v w with he | he
        · rw [he]; exact List.mem_cons_self _ _
        · rw [he]; exact List.mem_cons_of_mem _ (ih hm)

theorem colMaxO_mem : ∀ {xs : List (Option Rat)} {m : Rat},
    colMaxO xs = some m → some m ∈ xs := by
  intro xs
  induction xs with
  | nil => intro m h; exact absurd h (by simp [colMaxO])
  | cons x t ih =>
    intro m h
    cases x with
    | none =>
      simp only [colMaxO] at h
      exact List.mem_cons_of_mem _ (ih h)
    | some v =>
      simp only [colMaxO] at h
      cases hm : colMaxO t with
      | none =>
        rw [hm] at h
        obtain rfl : v = m := by injection h
        exact List.mem_cons_self _ _
      | some w =>
        rw [hm] at h
        obtain rfl : max v w = m := by injection h
        rcases max_choice v w with he | he
        · rw [he]; exact List.mem_cons_self _ _
        · rw [he]; exact List.mem_cons_of_mem _ (ih hm)

theorem normColumnO_length (p : Bool) (xs : List (Option Rat)) :
    (normColumnO p xs).length = xs.length := by
  unfold normColumnO
  cases p
  · simp
  · cases colMinO xs <;> cases colMaxO xs <;> simp <;> split <;> simp

theorem compositeOfCols_length (bL bC bA : Bool) (ls cs aps : List (Option Rat)) :
    (compositeOfCols bL bC bA ls cs aps).length =
      min ls.length (min cs.length aps.length) := by
  simp [compositeOfCols, List.length_zipWith, List.length_zip, normColumnO_length]

/-! Membership lemmas for sorting and first-occurrence dedup. -/

theorem mem_insertSorted {w v : String} : ∀ {l : List String},
    w ∈ insertSorted v l ↔ w = v ∨ w ∈ l := by
  intro l
  induction l with
  | nil => simp [insertSorted]
  | cons x t ih =>
    simp only [insertSorted]
    split
    · simp
    · simp only [List.mem_cons, ih]
      tauto

theorem mem_sortStrings {w : String} : ∀ {l : List String},
    w ∈ sortStrings l ↔ w ∈ l := by
  intro l
  induction l with
  | nil => simp [sortStrings]
  | cons x t ih =>
    simp only [sortStrings, List.foldr_cons] at ih ⊢
    rw [mem_insertSorted, ih]
    simp

theorem mem_dedupFirstAux {x : String} : ∀ {l seen : List String},
    x ∈ dedupFirstAux seen l → x ∈ l := by
  intro l
  induction l with
  | nil => intro seen h; exact absurd h (by simp [dedupFirstAux])
  | cons y t ih =>
    intro seen h
    simp only [dedupFirstAux] at h
    split at h
    · exact List.mem_cons_of_mem _ (ih h)
    · rcases List.mem_cons.mp h with h1 | h1
      · rw [h1]; exact List.mem_cons_self _ _
      · exact List.mem_cons_of_mem _ (ih h1)

/-- Every vendor group key traces back to a record carrying exactly
that vendor value. -/
theorem vendorKeys_sub {recs : List Record} {v : String} (h : v ∈ vendorKeys recs) :
    ∃ r ∈ recs, r.vendor = some v := by
  rw [vendorKeys] at h
  have h1 : v ∈ dedupFirst (recs.filterMap Record.vendor) := mem_sortStrings.mp h
  have h2 : v ∈ recs.filterMap Record.vendor := mem_dedupFirstAux h1
  exact List.mem_filterMap.mp h2

/-! Lemmas about idxmax, the tally dictionary and the wins fold. -/

theorem idxmaxOAux_lt : ∀ (xs : List (Option Rat)) (k : Nat) (acc : Option (Nat × Rat)) (i : Nat),
    idxmaxOAux xs k acc = some i → (∀ p, acc = some p → p.1 < k) → i < k + xs.length := by
  intro xs
  induction xs with
  | nil =>
    intro k acc i h hacc
    cases acc with
    | none => simp [idxmaxOAux] at h
    | some p =>
      simp only [idxmaxOAux] at h
      obtain rfl : p.1 = i := by injection h
      have := hacc p rfl
      simpa using this
  | cons x t ih =>
    intro k acc i h hacc
    cases x with
    | none =>
      have := ih (k + 1) acc i h (fun p hp => Nat.lt_succ_of_lt (hacc p hp))
      simp only [List.length_cons]
      omega
    | some v =>
      cases acc with
      | none =>
        simp only [idxmaxOAux] at h
        have := ih (k + 1) (some (k, v)) i h
          (by
            intro p hp
            obtain rfl : (k, v) = p := by injection hp
            exact Nat.lt_succ_self k)
        simp only [List.length_cons]
        omega
      | some q =>
        obtain ⟨j, m⟩ := q
        simp only [idxmaxOAux] at h
        have hj : j < k := hacc (j, m) rfl
        split at h
        · have := ih (k + 1) (some (k, v)) i h
            (by
              intro p hp
              obtain rfl : (k, v) = p := by injection hp
              exact Nat.lt_succ_self k)
          simp only [List.length_cons]
          omega
        · have := ih (k + 1) (some (j, m)) i h
            (by
              intro p hp
              obtain rfl : (j, m) = p := by injection hp
              exact Nat.lt_succ_of_lt hj)
          simp only [List.length_cons]
          omega

theorem idxmaxO_lt {xs : List (Option Rat)} {i : Nat} (h : idxmaxO xs = some i) :
    i < xs.length := by
  have := idxmaxOAux_lt xs 0 none i h (by intro p hp; exact absurd hp (by simp))
  simpa using this

theorem tallyTotal_bump (t : List (String × Nat)) (v : String) :
    tallyTotal (bump t v) = tallyTotal t + 1 := by
  induction t with
  | nil => simp [bump, tallyTotal]
  | cons p t ih =>
    obtain ⟨w, n⟩ := p
    simp only [bump]
    split
    · simp only [tallyTotal, List.map_cons, List.sum_cons]
      omega
    · simp only [tallyTotal, List.map_cons, List.sum_cons] at ih ⊢
      omega

theorem bump_keys {v : String} {p : String × Nat} : ∀ {t : List (String × Nat)},
    p ∈ bump t v → p.1 = v ∨ ∃ q ∈ t, p.1 = q.1 := by
  intro t
  induction t with
  | nil =>
    intro h
    simp only [bump, List.mem_singleton] at h
    left; rw [h]
  | cons q t ih =>
    obtain ⟨w, n⟩ := q
    intro h
    simp only [bump] at h
    split at h
    · rcases List.mem_cons.mp h with h1 | h1
      · right; exact ⟨(w, n), List.mem_cons_self _ _, by rw [h1]⟩
      · right; exact ⟨p, List.mem_cons_of_mem _ h1, rfl⟩
    · rcases List.mem_cons.mp h with h1 | h1
      · right; exact ⟨(w, n), List.mem_cons_self _ _, by rw [h1]⟩
      · rcases ih h1 with h2 | ⟨q, hq, h2⟩
        · left; exact h2
        · right; exact ⟨q, List.mem_cons_of_mem _ hq, h2⟩

theorem foldl_winsStep_none (ds : Dataset) : ∀ items : List String,
    items.foldl (winsStep ds) none = none := by
  intro items
  induction items with
  | nil => rfl
  | cons x t ih => simpa [winsStep] using ih

/-- Inversion: a partition reported as contributing no win has an empty
restricted summary. -/
theorem partitionWinner_none_inv {ds : Dataset} {itm : String}
    (h : partitionWinner ds itm = some none) : partitionSummary ds itm = [] := by
  unfold partitionWinner at h
  split at h
  · split at h
    · exact absurd h (by simp)
    · exact absurd h (by simp)
  · rename_i hlen
    have : (partitionSummary ds itm).length = 0 := by omega
    exact List.length_eq_zero.mp this

/-- Inversion: a partition with a recorded winner has a non-empty
summary, a selected index, and the winner is the vendor at that index. -/
theorem partitionWinner_some_inv {ds : Dataset} {itm : String} {v : String}
    (h : partitionWinner ds itm = some (some v)) :
    partitionSummary ds itm ≠ [] ∧
      ∃ i, idxmaxO (partitionComposites ds itm) = some i ∧
        v = ((partitionSummary ds itm).getD i ("", none, none, none)).1 := by
  unfold partitionWinner at h
  split at h
  · rename_i hlen
    constructor
    · intro he
      rw [he] at hlen
      simp at hlen
    · split at h
      · rename_i i hi
        refine ⟨i, hi, ?_⟩
        injection h with h
        injection h with h
        exact h.symm
      · exact absurd h (by simp)
  · exact absurd h (by simp)

/-- A recorded winner always names a vendor that occurs in the records. -/
theorem partitionWinner_vendor {ds : Dataset} {itm : String} {v : String}
    (h : partitionWinner ds itm = some (some v)) :
    ∃ r ∈ ds.recs, r.vendor = some v := by
  obtain ⟨hne, i, hi, hv⟩ := partitionWinner_some_inv h
  have hlen : i < (partitionSummary ds itm).length := by
    have h1 := idxmaxO_lt hi
    have h2 : (partitionComposites ds itm).length = (partitionSummary ds itm).length := by
      simp [partitionComposites, compositeOfCols_length]
    omega
  have hkeys : i < (vendorKeys (itemGroup ds.recs itm)).length := by
    simpa [partitionSummary] using hlen
  have hv2 : v = (vendorKeys (itemGroup ds.recs itm)).getD i "" := by
    rw [hv, List.getD_eq_getElem _ _ hlen, List.getD_eq_getElem _ _ hkeys]
    simp [partitionSummary]
  have hmem : v ∈ vendorKeys (itemGroup ds.recs itm) := by
    rw [hv2, List.getD_eq_getElem _ _ hkeys]
    exact List.getElem_mem _
  obtain ⟨r, hr, hrv⟩ := vendorKeys_sub hmem
  exact ⟨r, (List.mem_filter.mp hr).1, hrv⟩

/-- Wins-fold invariant: a successful fold adds exactly one win per
scoreable partition. -/
theorem winsFold_total (ds : Dataset) : ∀ (items : List String) (t0 t : List (String × Nat)),
    items.foldl (winsStep ds) (some t0) = some t →
    tallyTotal t = tallyTotal t0 + (items.filter (scoreableB ds)).length := by
  intro items
  induction items with
  | nil =>
    intro t0 t h
    obtain rfl : t0 = t := by injection h
    simp
  | cons itm rest ih =>
    intro t0 t h
    rw [List.foldl_cons] at h
    cases hw : partitionWinner ds itm with
    | none =>
      rw [show winsStep ds (some t0) itm = none by simp [winsStep, hw]] at h
      rw [foldl_winsStep_none] at h
      exact absurd h (by simp)
    | some w =>
      cases w with
      | none =>
        rw [show winsStep ds (some t0) itm = some t0 by simp [winsStep, hw]] at h
        have hsc : scoreableB ds itm = false := by
          simp [scoreableB, partitionWinner_none_inv hw]
        rw [List.filter_cons, hsc]
        exact ih t0 t h
      | some v =>
        rw [show winsStep ds (some t0) itm = some (bump t0 v) by simp [winsStep, hw]] at h
        obtain ⟨hne, i, hi, _⟩ := partitionWinner_some_inv hw
        have hsc : scoreableB ds itm = true := by
          simp [scoreableB, hne, hi]
        have := ih (bump t0 v) t h
        rw [tallyTotal_bump] at this
        simp [List.filter_cons, hsc]
        omega

/-- Wins-fold invariant: every key of the tally comes from a recorded
winner or from the initial tally. -/
theorem winsFold_keys (ds : Dataset) : ∀ (items : List String) (t0 t : List (String × Nat)),
    items.foldl (winsStep ds) (some t0) = some t →
    (∀ p ∈ t0, ∃ r ∈ ds.recs, r.vendor = some p.1) →
    ∀ p ∈ t, ∃ r ∈ ds.recs, r.vendor = some p.1 := by
  intro items
  induction items with
  | nil =>
    intro t0 t h h0
    obtain rfl : t0 = t := by injection h
    exact h0
  | cons itm rest ih =>
    intro t0 t h h0
    rw [List.foldl_cons] at h
    cases hw : partitionWinner ds itm with
    | none =>
      rw [show winsStep ds (some t0) itm = none by simp [winsStep, hw]] at h
      rw [foldl_winsStep_none] at h
      exact absurd h (by simp)
    | some w =>
      cases w with
      | none =>
        rw [show winsStep ds (some t0) itm = some t0 by simp [winsStep, hw]] at h
        exact ih t0 t h h0
      | some v =>
        rw [show winsStep ds (some t0) itm = some (bump t0 v) by simp [winsStep, hw]] at h
        refine ih (bump t0 v) t h ?_
        intro p hp
        rcases bump_keys hp with h1 | ⟨q, hq, h1⟩
        · rw [h1]; exact partitionWinner_vendor hw
        · rw [h1]; exact h0 q hq

/-! Lemmas about the normalization step and the composite formula. -/

theorem foldl_min_shift (l : List Rat) : ∀ a b : Rat,
    l.foldl min (min a b) = min a (l.foldl min b) := by
  induction l with
  | nil => intro a b; rfl
  | cons c t ih =>
    intro a b
    simp only [List.foldl_cons]
    rw [min_assoc, ih]

theorem foldl_max_shift (l : List Rat) : ∀ a b : Rat,
    l.foldl max (max a b) = max a (l.foldl max b) := by
  induction l with
  | nil => intro a b; rfl
  | cons c t ih =>
    intro a b
    simp only [List.foldl_cons]
    rw [max_assoc, ih]

theorem colMinO_map_some : ∀ (x : Rat) (xs : List Rat),
    colMinO ((x :: xs).map some) = some (colMinQ (x :: xs)) := by
  intro x xs
  induction xs generalizing x with
  | nil => rfl
  | cons y t ih =>
    have hih := ih y
    simp only [List.map_cons, colMinO] at hih ⊢
    rw [hih]
    simp only [colMinQ, List.foldl_cons]
    rw [foldl_min_shift]

theorem colMaxO_map_some : ∀ (x : Rat) (xs : List Rat),
    colMaxO ((x :: xs).map some) = some (colMaxQ (x :: xs)) := by
  intro x xs
  induction xs generalizing x with
  | nil => rfl
  | cons y t ih =>
    have hih := ih y
    simp only [List.map_cons, colMaxO] at hih ⊢
    rw [hih]
    simp only [colMaxQ, List.foldl_cons]
    rw [foldl_max_shift]

/-- Reading one entry of the composite column through its three
normalized columns. -/
theorem compositeOfCols_getD (ls cs aps : List (Option Rat)) (i : Nat)
    (h1 : ls.length = cs.length) (h2 : cs.length = aps.length) (hi : i < ls.length) :
    (compositeOfCols true true true ls cs aps).getD i none =
      comp3 ((normColumnO true ls).getD i none)
        ((normColumnO true cs).getD i none, (normColumnO true aps).getD i none) := by
  have hlenC : (compositeOfCols true true true ls cs aps).length = ls.length := by
    rw [compositeOfCols_length]
    omega
  have hiC : i < (compositeOfCols true true true ls cs aps).length := by omega
  have hiL : i < (normColumnO true ls).length := by rw [normColumnO_length]; omega
  have hiCs : i < (normColumnO true cs).length := by rw [normColumnO_length]; omega
  have hiA : i < (normColumnO true aps).length := by rw [normColumnO_length]; omega
  have hiZ : i < ((normColumnO true cs).zip (normColumnO true aps)).length := by
    rw [List.length_zip]
    omega
  rw [List.getD_eq_getElem _ _ hiC, List.getD_eq_getElem _ _ hiL,
    List.getD_eq_getElem _ _ hiCs, List.getD_eq_getElem _ _ hiA]
  have hiW : i < (List.zipWith comp3 (normColumnO true ls)
      ((normColumnO true cs).zip (normColumnO true aps))).length := hiC
  show (List.zipWith comp3 (normColumnO true ls)
      ((normColumnO true cs).zip (normColumnO true aps)))[i] = _
  rw [List.getElem_zipWith, List.getElem_zip]

/-- On a column with no missing entry, the source normalization agrees
with the spec formula entrywise. -/
theorem normColumnO_spec : ∀ (xs : List Rat) (i : Nat), i < xs.length →
    (normColumnO true (xs.map some)).getD i none = some (specNorm xs (xs.getD i 0)) := by
  intro xs i hi
  cases xs with
  | nil => simp at hi
  | cons x t =>
    simp only [normColumnO, if_true, colMinO_map_some, colMaxO_map_some]
    by_cases hlt : colMinQ (x :: t) < colMaxQ (x :: t)
    · rw [if_pos hlt]
      have hi2 : i < (((x :: t).map some).map
          (Option.map fun v =>
            (v - colMinQ (x :: t)) / (colMaxQ (x :: t) - colMinQ (x :: t)))).length := by
        simpa using hi
      rw [List.getD_eq_getElem _ _ hi2]
      simp only [List.getElem_map, Option.map_some']
      rw [specNorm, if_pos hlt, List.getD_eq_getElem _ _ hi]
    · rw [if_neg hlt]
      have hi2 : i < (((x :: t).map some).map (fun _ => some (0 : Rat))).length := by
        simpa using hi
      rw [List.getD_eq_getElem _ _ hi2]
      simp only [List.getElem_map]
      rw [specNorm, if_neg hlt]

/-- A column containing two distinct present values has a strictly
smaller minimum than maximum. -/
theorem minLtMax_of_twoDistinct {xs : List (Option Rat)} {a b : Rat}
    (ha : some a ∈ xs) (hb : some b ∈ xs) (hab : a ≠ b) :
    ∃ mn mx, colMinO xs = some mn ∧ colMaxO xs = some mx ∧ mn < mx := by
  obtain ⟨mn, hmn⟩ := Option.isSome_iff_exists.mp (colMinO_isSome ha)
  obtain ⟨mx, hmx⟩ := Option.isSome_iff_exists.mp (colMaxO_isSome ha)
  refine ⟨mn, mx, hmn, hmx, ?_⟩
  have h1 := colMinO_le hmn ha
  have h2 := colMinO_le hmn hb
  have h3 := colMaxO_ge hmx ha
  have h4 := colMaxO_ge hmx hb
  rcases lt_trichotomy a b with h | h | h
  · exact lt_of_le_of_lt h1 (lt_of_lt_of_le h h4)
  · exact absurd h hab
  · exact lt_of_le_of_lt h2 (lt_of_lt_of_le h h3)

/-- Entrywise value and bounds of the normalization of a non-flat
column at a present entry. -/
theorem normColumnO_entry_bounds {xs : List (Option Rat)} {mn mx : Rat}
    (hmn : colMinO xs = some mn) (hmx : colMaxO xs = some mx) (hlt : mn < mx)
    {i : Nat} (hi : i < xs.length) {v : Rat} (hv : xs.getD i none = some v) :
    (normColumnO true xs).getD i none = some ((v - mn) / (mx - mn)) ∧
      0 ≤ (v - mn) / (mx - mn) ∧ (v - mn) / (mx - mn) ≤ 1 := by
  have hi2 : i < (normColumnO true xs).length := by rw [normColumnO_length]; exact hi
  rw [List.getD_eq_getElem _ _ hi] at hv
  have hmem : some v ∈ xs := by rw [← hv]; exact List.getElem_mem _
  have hvmn : mn ≤ v := colMinO_le hmn hmem
  have hvmx : v ≤ mx := colMaxO_ge hmx hmem
  have hpos : 0 < mx - mn := sub_pos.mpr hlt
  refine ⟨?_, ?_, ?_⟩
  · rw [List.getD_eq_getElem _ _ hi2]
    simp only [normColumnO, if_true, hmn, hmx, if_pos hlt]
    simp only [List.getElem_map, hv, Option.map_some']
  · exact div_nonneg (sub_nonneg.mpr hvmn) (le_of_lt hpos)
  · rw [div_le_one hpos]
    exact sub_le_sub_right hvmx mn

/-- A missing entry of a non-flat column stays missing after
normalization (NaN propagates through the min-max formula). -/
theorem normColumnO_entry_none {xs : List (Option Rat)} {mn mx : Rat}
    (hmn : colMinO xs = some mn) (hmx : colMaxO xs = some mx) (hlt : mn < mx)
    {i : Nat} (hi : i < xs.length) (hv : xs.getD i none = none) :
    (normColumnO true xs).getD i none = none := by
  have hi2 : i < (normColumnO true xs).length := by rw [normColumnO_length]; exact hi
  rw [List.getD_eq_getElem _ _ hi] at hv
  rw [List.getD_eq_getElem _ _ hi2]
  simp only [normColumnO, if_true, hmn, hmx, if_pos hlt]
  simp only [List.getElem_map, hv, Option.map_none']

/-- add_composite on a one-row table: every column is flat, every
normalized term is the scalar 0, and the composite is 0.8. -/
theorem compositeOfCols_singleton (bL bC bA : Bool) (x y z : Option Rat) :
    compositeOfCols bL bC bA [x] [y] [z] = [some (4 / 5)] := by
  have hnorm : ∀ (b : Bool) (w : Option Rat), normColumnO b [w] = [some 0] := by
    intro b w
    cases b with
    | false => rfl
    | true =>
      cases w with
      | none => rfl
      | some v =>
        simp only [normColumnO, colMinO, colMaxO, if_true]
        rw [if_neg (lt_irrefl v)]
        rfl
  rw [compositeOfCols, hnorm, hnorm, hnorm]
  show [comp3 (some 0) (some 0, some 0)] = [some (4 / 5)]
  rw [comp3]
  norm_num

theorem dedupFirstAux_const {v : String} : ∀ {l : List String},
    (∀ x ∈ l, x = v) → dedupFirstAux [v] l = [] := by
  intro l
  induction l with
  | nil => intro _; rfl
  | cons y t ih =>
    intro h
    have hy : y = v := h y (List.mem_cons_self _ _)
    subst hy
    show (if y ∈ [y] then dedupFirstAux [y] t else y :: dedupFirstAux (y :: [y]) t) = []
    rw [if_pos (by simp)]
    exact ih (fun x hx => h x (List.mem_cons_of_mem _ hx))

theorem dedupFirst_const {v : String} {l : List String}
    (hne : l ≠ []) (hall : ∀ x ∈ l, x = v) : dedupFirst l = [v] := by
  cases l with
  | nil => exact absurd rfl hne
  | cons y t =>
    have hy : y = v := hall y (List.mem_cons_self _ _)
    subst hy
    show (if y ∈ ([] : List String) then dedupFirstAux [] t
      else y :: dedupFirstAux (y :: []) t) = [y]
    rw [if_neg (by simp)]
    rw [dedupFirstAux_const (fun x hx => hall x (List.mem_cons_of_mem _ hx))]

/-- A non-empty record list carrying one single vendor value yields
exactly that one group key. -/
theorem vendorKeys_const {v : String} {recs : List Record}
    (hne : recs ≠ []) (hall : ∀ r ∈ recs, r.vendor = some v) :
    vendorKeys recs = [v] := by
  have h1 : ∀ x ∈ recs.filterMap Record.vendor, x = v := by
    intro x hx
    obtain ⟨r, hr, hrx⟩ := List.mem_filterMap.mp hx
    rw [hall r hr] at hrx
    injection hrx with h
    exact h.symm
  have h2 : recs.filterMap Record.vendor ≠ [] := by
    cases recs with
    | nil => exact absurd rfl hne
    | cons r t =>
      have : v ∈ (r :: t).filterMap Record.vendor :=
        List.mem_filterMap.mpr ⟨r, List.mem_cons_self _ _, hall r (List.mem_cons_self _ _)⟩
      exact List.ne_nil_of_mem this
  rw [vendorKeys, dedupFirst_const h2 h1]
  rfl

/-- Claim C1: for every RawGrid the Header Locator examines only rows
0 .. min(5, rowCount) - 1 and returns the lowest index of a row in which
some cell contains the substring Vendor case-insensitively; it fails
with a HeaderNotFound error if and only if no row in that window
contains such a cell. -/
theorem C1_header_locator : ∀ g : List (List String),
    (∀ i, locateHeader g = Except.ok i →
      i < min 5 g.length ∧ rowHasVendor (g.getD i []) = true ∧
        ∀ j, j < i → rowHasVendor (g.getD j []) = false)
    ∧ (locateHeader g = Except.error ("HeaderNotFound") ↔
        ∀ j, j < min 5 g.length → rowHasVendor (g.getD j []) = false) := by
  intro g
  constructor
  · intro i h
    unfold locateHeader at h
    cases hf : findHeaderRow g with
    | none => rw [hf] at h; exact absurd h (by simp)
    | some k =>
      rw [hf] at h
      obtain rfl : k = i := by injection h
      exact find?_range_spec _ _ _ hf
  · constructor
    · intro h j hj
      unfold locateHeader at h
      cases hf : findHeaderRow g with
      | none => exact find?_range_none _ _ hf j hj
      | some k => rw [hf] at h; exact absurd h (by simp)
    · intro h
      unfold locateHeader
      cases hf : findHeaderRow g with
      | none => rfl
      | some k =>
        obtain ⟨h1, h2, _⟩ := find?_range_spec _ _ _ hf
        rw [h k h1] at h2
        exact absurd h2 (by simp)

/-- Witness for C1 at a concrete grid: the marker sits in row 1, and the
locator reports exactly that row with nothing matching before it. -/
theorem C1_header_locator_witness :
    1 < min 5 ([["misc"], ["x", "VENDOR NAME"], ["data"]] : List (List String)).length ∧
      rowHasVendor (([["misc"], ["x", "VENDOR NAME"], ["data"]] : List (List String)).getD 1 []) = true ∧
      ∀ j, j < 1 → rowHasVendor (([["misc"], ["x", "VENDOR NAME"], ["data"]] : List (List String)).getD j []) = false :=
  (C1_header_locator [["misc"], ["x", "VENDOR NAME"], ["data"]]).1 1 rfl

/-- Claim C7: for every RawGrid whose located header row already
contains exactly the canonical field names, the Schema Normalizer's
renaming step is a no-op: the output column names equal the input
header names. -/
theorem C7_canonical_noop : ∀ hdr : List String,
    (∀ c ∈ hdr, c ∈ canonicalNames) → normalizeHeader hdr = hdr := by
  have key : ∀ c ∈ canonicalNames, renameColumn (stripStr c) = c := by decide
  intro hdr
  induction hdr with
  | nil => intro _; rfl
  | cons x t ih =>
    intro h
    have hx := key x (h x (List.mem_cons_self x t))
    have ht := ih (fun c hc => h c (List.mem_cons_of_mem x hc))
    simp only [normalizeHeader, List.map_cons] at ht ⊢
    rw [hx, ht]

/-- Witness for C7 at a concrete all-canonical header row. -/
theorem C7_canonical_noop_witness :
    normalizeHeader ["Vendor", "Order", "AP Terms", "Cost per order"] =
      ["Vendor", "Order", "AP Terms", "Cost per order"] :=
  C7_canonical_noop ["Vendor", "Order", "AP Terms", "Cost per order"] (by decide)

/-- Claim C6: when both date columns are present, lead_time_days is
the whole-day difference arrival minus order, negative results are
replaced by missing (so the derived column is never negative), and when
either date column is absent the Lead Time column is entirely absent
rather than zero-filled. -/
theorem C6_lead_time :
    (∀ rows col, deriveLeadColumn true true rows = some col →
      (∀ d : Int, some d ∈ col → 0 ≤ d) ∧
      ∀ i, i < rows.length →
        ∀ od ad : Int, (rows.getD i ⟨none, none⟩).orderDate = some od →
          (rows.getD i ⟨none, none⟩).arrivalDate = some ad →
          col.getD i none = (if ad - od < 0 then none else some (ad - od)))
    ∧ ∀ hasOD hasAD rows, (hasOD = false ∨ hasAD = false) →
        deriveLeadColumn hasOD hasAD rows = none := by
  constructor
  · intro rows col h
    have hcol : col = rows.map (fun r => computeLeadTime r.arrivalDate r.orderDate) := by
      unfold deriveLeadColumn at h
      simp at h
      exact h.symm
    constructor
    · intro d hd
      rw [hcol] at hd
      obtain ⟨r, _, hr⟩ := List.mem_map.mp hd
      unfold computeLeadTime at hr
      cases ha : r.arrivalDate with
      | none => rw [ha] at hr; simp at hr
      | some a =>
        cases ho : r.orderDate with
        | none => rw [ha, ho] at hr; simp at hr
        | some o =>
          rw [ha, ho] at hr
          simp only [computeLeadTime] at hr
          split at hr
          · exact absurd hr (by simp)
          · obtain rfl : a - o = d := by injection hr
            omega
    · intro i hi od ad hod had
      have hlen : i < (rows.map (fun r => computeLeadTime r.arrivalDate r.orderDate)).length := by
        simpa using hi
      rw [hcol, List.getD_eq_getElem _ _ hlen, List.getElem_map]
      rw [List.getD_eq_getElem _ _ hi] at hod had
      rw [hod, had]
      rfl
  · intro hasOD hasAD rows h
    rcases h with h | h <;> rw [h] <;> simp [deriveLeadColumn]

/-- Witness for C6 at one concrete record: order day 3, arrival day 10
yields the whole-day difference 7 in the derived column. -/
theorem C6_lead_time_witness :
    ([some 7] : List (Option Int)).getD 0 none =
      (if (10 : Int) - 3 < 0 then none else some (10 - 3)) :=
  ((C6_lead_time).1 [⟨some 3, some 10⟩] [some 7] rfl).2 0 (by decide) 3 10 rfl rfl

/-- Claim C2: the Composite Scorer normalizes each scored column by
norm = (value - min) / (max - min) when max > min and 0 uniformly
otherwise, and combines them as 0.4 * (1 - norm lead) +
0.4 * (1 - norm cost) + 0.2 * norm AP (stated as agreement with the
spec formula on fully present columns); in particular, on the
two-record input with vendor A (lead 5, cost 10, ap 30) and vendor B
(lead 10, cost 5, ap 60), A scores 0.4, B scores 0.6, and B wins. -/
theorem C2_composite_scorer :
    (∀ ls cs aps : List Rat, ls.length = cs.length → cs.length = aps.length →
      ∀ i, i < ls.length →
        (compositeOfCols true true true (ls.map some) (cs.map some) (aps.map some)).getD i none
          = some (specComposite ls cs aps i))
    ∧ metricsComposites dsAB = [some (2 / 5), some (3 / 5)]
    ∧ partitionWinner dsAB ("P") = some (some ("B")) := by
  refine ⟨?_, ?_, ?_⟩
  · intro ls cs aps h1 h2 i hi
    rw [compositeOfCols_getD _ _ _ i (by simpa using h1) (by simpa using h2) (by simpa using hi)]
    rw [normColumnO_spec ls i hi, normColumnO_spec cs i (by omega),
      normColumnO_spec aps i (by omega)]
    rfl
  · norm_num +decide [metricsComposites, compositeOfCols, metrics, aggRow, avgTriple, vendorKeys,
      sortStrings, insertSorted, strLeB, charsLe, dedupFirst, dedupFirstAux, groupOf, meanOpt,
      colMinO, colMaxO, normColumnO, comp3, dsAB, recA, recB, List.filterMap, Option.map, id_eq]
  · norm_num +decide [partitionWinner, partitionSummary, partitionComposites, itemGroup,
      compositeOfCols, idxmaxO, idxmaxOAux, avgTriple, vendorKeys,
      sortStrings, insertSorted, strLeB, charsLe, dedupFirst, dedupFirstAux, groupOf, meanOpt,
      colMinO, colMaxO, normColumnO, comp3, dsAB, recA, recB, List.filterMap, Option.map, id_eq]

/-- Witness for C2 at the example columns, row 0. -/
theorem C2_composite_scorer_witness :
    (compositeOfCols true true true
        ([5, 10].map some) ([10, 5].map some) ([30, 60].map some)).getD 0 none
      = some (specComposite [5, 10] [10, 5] [30, 60] 0) :=
  (C2_composite_scorer).1 [5, 10] [10, 5] [30, 60] rfl rfl 0 (by decide)

/-- Claim C3 (amended): when each of the three contributing columns
has at least two distinct (present) values, every row whose three
averages are all present has a composite score in the interval from 0
to 1; a row with a missing average has a missing composite score; and
a column with a single distinct value contributes exactly 0 to its
normalized term (its normalized column is constantly 0). -/
theorem C3_composite_bounds :
    (∀ ls cs aps : List (Option Rat), ls.length = cs.length → cs.length = aps.length →
      (∃ a b : Rat, some a ∈ ls ∧ some b ∈ ls ∧ a ≠ b) →
      (∃ a b : Rat, some a ∈ cs ∧ some b ∈ cs ∧ a ≠ b) →
      (∃ a b : Rat, some a ∈ aps ∧ some b ∈ aps ∧ a ≠ b) →
      ∀ i, i < ls.length →
        ∀ vL vC vA : Rat, ls.getD i none = some vL → cs.getD i none = some vC →
          aps.getD i none = some vA →
          ∃ q, (compositeOfCols true true true ls cs aps).getD i none = some q ∧
            0 ≤ q ∧ q ≤ 1)
    ∧ (∀ ls cs aps : List (Option Rat), ls.length = cs.length → cs.length = aps.length →
      (∃ a b : Rat, some a ∈ ls ∧ some b ∈ ls ∧ a ≠ b) →
      (∃ a b : Rat, some a ∈ cs ∧ some b ∈ cs ∧ a ≠ b) →
      (∃ a b : Rat, some a ∈ aps ∧ some b ∈ aps ∧ a ≠ b) →
      ∀ i, i < ls.length →
        (ls.getD i none = none ∨ cs.getD i none = none ∨ aps.getD i none = none) →
        (compositeOfCols true true true ls cs aps).getD i none = none)
    ∧ ∀ (b : Bool) (xs : List (Option Rat)) (v : Rat),
        (∀ w : Rat, some w ∈ xs → w = v) →
        normColumnO b xs = xs.map (fun _ => some 0) := by
  refine ⟨?_, ?_, ?_⟩
  · intro ls cs aps h1 h2 hdL hdC hdA i hi vL vC vA hvL hvC hvA
    obtain ⟨a1, b1, ha1, hb1, hab1⟩ := hdL
    obtain ⟨mnL, mxL, hmnL, hmxL, hltL⟩ := minLtMax_of_twoDistinct ha1 hb1 hab1
    obtain ⟨a2, b2, ha2, hb2, hab2⟩ := hdC
    obtain ⟨mnC, mxC, hmnC, hmxC, hltC⟩ := minLtMax_of_twoDistinct ha2 hb2 hab2
    obtain ⟨a3, b3, ha3, hb3, hab3⟩ := hdA
    obtain ⟨mnA, mxA, hmnA, hmxA, hltA⟩ := minLtMax_of_twoDistinct ha3 hb3 hab3
    have hiC : i < cs.length := by omega
    have hiA : i < aps.length := by omega
    obtain ⟨heL, h0L, h1L⟩ := normColumnO_entry_bounds hmnL hmxL hltL hi hvL
    obtain ⟨heC, h0C, h1C⟩ := normColumnO_entry_bounds hmnC hmxC hltC hiC hvC
    obtain ⟨heA, h0A, h1A⟩ := normColumnO_entry_bounds hmnA hmxA hltA hiA hvA
    rw [compositeOfCols_getD ls cs aps i h1 h2 hi, heL, heC, heA]
    refine ⟨_, rfl, ?_, ?_⟩
    · have e1 : (0 : Rat) ≤ 1 - (vL - mnL) / (mxL - mnL) := by linarith
      have e2 : (0 : Rat) ≤ 1 - (vC - mnC) / (mxC - mnC) := by linarith
      nlinarith
    · nlinarith
  · intro ls cs aps h1 h2 hdL hdC hdA i hi hnone
    obtain ⟨a1, b1, ha1, hb1, hab1⟩ := hdL
    obtain ⟨mnL, mxL, hmnL, hmxL, hltL⟩ := minLtMax_of_twoDistinct ha1 hb1 hab1
    obtain ⟨a2, b2, ha2, hb2, hab2⟩ := hdC
    obtain ⟨mnC, mxC, hmnC, hmxC, hltC⟩ := minLtMax_of_twoDistinct ha2 hb2 hab2
    obtain ⟨a3, b3, ha3, hb3, hab3⟩ := hdA
    obtain ⟨mnA, mxA, hmnA, hmxA, hltA⟩ := minLtMax_of_twoDistinct ha3 hb3 hab3
    have hiC : i < cs.length := by omega
    have hiA : i < aps.length := by omega
    rw [compositeOfCols_getD ls cs aps i h1 h2 hi]
    rcases hnone with hv | hv | hv
    · rw [normColumnO_entry_none hmnL hmxL hltL hi hv]
      cases hC : (normColumnO true cs).getD i none <;>
        cases hA : (normColumnO true aps).getD i none <;> rfl
    · rw [normColumnO_entry_none hmnC hmxC hltC hiC hv]
      cases hL : (normColumnO true ls).getD i none <;>
        cases hA : (normColumnO true aps).getD i none <;> rfl
    · rw [normColumnO_entry_none hmnA hmxA hltA hiA hv]
      cases hL : (normColumnO true ls).getD i none <;>
        cases hC : (normColumnO true cs).getD i none <;> rfl
  · intro b xs v hflat
    cases b with
    | false => rfl
    | true =>
      cases hmn : colMinO xs with
      | none =>
        cases hmx : colMaxO xs with
        | none => simp [normColumnO, hmn, hmx]
        | some mx => simp [normColumnO, hmn, hmx]
      | some mn =>
        have hmnv : mn = v := hflat mn (colMinO_mem hmn)
        obtain ⟨mx, hmx⟩ :=
          Option.isSome_iff_exists.mp (colMaxO_isSome (colMinO_mem hmn))
        have hmxv : mx = v := hflat mx (colMaxO_mem hmx)
        subst hmnv
        rw [hmxv] at hmx
        simp [normColumnO, hmn, hmx, lt_irrefl]

/-- Witness for C3 at a concrete mixed table (one missing lead entry
in a row other than the one inspected): the fully present row 0 has a
bounded composite score. -/
theorem C3_composite_bounds_witness :
    ∃ q, (compositeOfCols true true true [some 0, some 1, none]
        [some 0, some 1, some 2] [some 0, some 1, some 2]).getD 0 none = some q ∧
      0 ≤ q ∧ q ≤ 1 :=
  (C3_composite_bounds).1 [some 0, some 1, none] [some 0, some 1, some 2]
    [some 0, some 1, some 2] rfl rfl
    ⟨0, 1, by simp, by simp, by norm_num⟩ ⟨0, 1, by simp, by simp, by norm_num⟩
    ⟨0, 1, by simp, by simp, by norm_num⟩ 0 (by decide) 0 0 0 rfl rfl rfl

/-- Counterexample for C3 as stated: a table whose lead column holds
the two distinct values 0 and 1 plus one missing entry (a vendor group
with no measured lead time) gives the third row a missing composite
score, which does not lie in the interval from 0 to 1. -/
theorem C3_counterexample :
    (∃ a b : Rat, some a ∈ [some (0 : Rat), some 1, none] ∧
      some b ∈ [some (0 : Rat), some 1, none] ∧ a ≠ b) ∧
    (compositeOfCols true true true [some 0, some 1, none]
        [some 0, some 1, some 2] [some 0, some 1, some 2]).getD 2 none = none := by
  constructor
  · exact ⟨0, 1, by simp, by simp, by norm_num⟩
  · norm_num [compositeOfCols, colMinO, colMaxO, normColumnO, comp3]

/-- Counterexample for C4 as stated: a one-vendor subset yields the
composite 0.8, not 0.4 (the two inverted 0.4-weight terms both
contribute in full). -/
theorem C4_counterexample :
    metricsComposites dsSolo = [some (4 / 5)] ∧
      metricsComposites dsSolo ≠ [some (2 / 5)] := by
  have h : metricsComposites dsSolo = [some (4 / 5)] := by
    norm_num +decide [metricsComposites, compositeOfCols, metrics, aggRow, avgTriple, vendorKeys,
      sortStrings, insertSorted, strLeB, charsLe, dedupFirst, dedupFirstAux, groupOf, meanOpt,
      colMinO, colMaxO, normColumnO, comp3, dsSolo, recA, List.filterMap, Option.map, id_eq]
  refine ⟨h, ?_⟩
  rw [h]
  intro hc
  have h45 : (4 / 5 : Rat) = 2 / 5 := by
    have := List.head_eq_of_cons_eq hc
    injection this
  norm_num at h45

/-- Claim C4 (amended): for every record subset containing exactly one
vendor, every metric is flat, all three normalized terms are 0, and the
sole vendor's composite score equals 0.8 (not 0.4 as the spec's
arithmetic slip states). -/
theorem C4_single_vendor_composite : ∀ (ds : Dataset) (v : String),
    ds.recs ≠ [] → (∀ r ∈ ds.recs, r.vendor = some v) →
    metricsComposites ds = [some (4 / 5)] := by
  intro ds v hne hall
  have hkeys := vendorKeys_const hne hall
  rw [metricsComposites, metrics, hkeys]
  simp only [List.map_cons, List.map_nil]
  exact compositeOfCols_singleton true true true _ _ _

/-- Witness for C4 (amended) at the one-vendor dataset. -/
theorem C4_single_vendor_composite_witness : metricsComposites dsSolo = [some (4 / 5)] :=
  C4_single_vendor_composite dsSolo ("A") (by decide) (by decide)

/-- Counterexample for C5 as stated: a group holding one record whose
order identifier is missing reports order_count 0 although the group
has one record, because the pandas count aggregation counts non-null
entries of the Order column. -/
theorem C5_counterexample :
    (metrics dsNoOrder).map MetricsRow.orders = [0] ∧
      (dsNoOrder.recs.filter (fun r => r.vendor == some ("A"))).length = 1 ∧
      (0 : Nat) ≠ 1 := by
  refine ⟨?_, by decide, by decide⟩
  show List.map MetricsRow.orders (List.map (aggRow dsNoOrder) (vendorKeys dsNoOrder.recs)) = [0]
  decide

/-- Claim C5 (amended): for every group produced by the Metric
Aggregator, order_count equals the number of records in the group whose
order identifier is present (pandas count-of-non-null semantics, not
count of rows). -/
theorem C5_order_count : ∀ (ds : Dataset), ∀ row ∈ metrics ds,
    row.orders = ds.recs.countP (fun r => r.vendor == some row.vendor && r.order.isSome) := by
  intro ds row hrow
  obtain ⟨v, hv, rfl⟩ := List.mem_map.mp hrow
  simp only [aggRow, groupOf]
  rw [List.countP_eq_length_filter, List.filter_filter]
  congr 1
  exact List.filter_congr (fun a _ => Bool.and_comm _ _)

/-- Witness for C5 (amended) at a concrete dataset and summary row. -/
theorem C5_order_count_witness :
    (aggRow dsAB ("A")).orders =
      dsAB.recs.countP
        (fun r => r.vendor == some ((aggRow dsAB ("A")).vendor) && r.order.isSome) :=
  C5_order_count dsAB (aggRow dsAB ("A"))
    (List.mem_map_of_mem (aggRow dsAB) (by decide))

/-- Claim C8: for every filtered record subset, when the win loop
completes, partitions whose restricted summary is empty or scoreless
contribute no tally, and the total of all win counts equals the number
of non-empty, scoreable partitions. -/
theorem C8_win_tally_sum : ∀ (ds : Dataset) (t : List (String × Nat)),
    winsTally ds = some t →
    tallyTotal t = ((distinctItems ds.recs).filter (scoreableB ds)).length := by
  intro ds t h
  unfold winsTally at h
  have := winsFold_total ds (distinctItems ds.recs) [] t h
  simpa [tallyTotal] using this

/-- Witness for C8 at the two-record dataset: one partition, one win. -/
theorem C8_win_tally_sum_witness :
    tallyTotal [("B", 1)] = ((distinctItems dsAB.recs).filter (scoreableB dsAB)).length :=
  C8_win_tally_sum dsAB [("B", 1)]
    (by
      norm_num +decide [winsTally, winsStep, distinctItems, bump, partitionWinner,
        partitionSummary, partitionComposites, itemGroup, compositeOfCols, idxmaxO, idxmaxOAux,
        avgTriple, vendorKeys, sortStrings, insertSorted, strLeB, charsLe, dedupFirst,
        dedupFirstAux, groupOf, meanOpt, colMinO, colMaxO, normColumnO, comp3, dsAB, recA, recB,
        List.filterMap, Option.map, id_eq])

/-- Claim C9: records with no vendor value are excluded from every
grouping and scoring operation: every summary row's vendor and every
win-tally key comes from a record that actually carries that vendor
value (so no row is keyed by a missing vendor, and missing vendors do
not collapse into an empty-string bucket). -/
theorem C9_missing_vendor_excluded : ∀ ds : Dataset,
    (∀ row ∈ metrics ds, ∃ r ∈ ds.recs, r.vendor = some row.vendor)
    ∧ ∀ t, winsTally ds = some t → ∀ p ∈ t, ∃ r ∈ ds.recs, r.vendor = some p.1 := by
  intro ds
  constructor
  · intro row hrow
    obtain ⟨v, hv, rfl⟩ := List.mem_map.mp hrow
    exact vendorKeys_sub hv
  · intro t h p hp
    unfold winsTally at h
    exact winsFold_keys ds (distinctItems ds.recs) [] t h
      (by intro q hq; exact absurd hq (by simp)) p hp

/-- Witness for C9 at the two-record dataset: the summary row keyed A
traces back to a record with vendor A. -/
theorem C9_missing_vendor_excluded_witness :
    ∃ r ∈ dsAB.recs, r.vendor = some ((aggRow dsAB ("A")).vendor) :=
  (C9_missing_vendor_excluded dsAB).1 (aggRow dsAB ("A"))
    (List.mem_map_of_mem (aggRow dsAB) (by decide))

/-- Claim C10: whenever a numeric range filter is active, every record
whose value for the filtered field is missing is excluded from the
filtered subset, for every selected range; records that survive carry a
present value inside the range. -/
theorem C10_range_filter_missing :
    (∀ (f : Record → Option Rat) (lo hi : Rat) (recs : List Record) (r : Record),
      r ∈ rangeFilter f lo hi recs → ∃ v, f r = some v ∧ lo ≤ v ∧ v ≤ hi)
    ∧ ∀ (f : Record → Option Rat) (lo hi : Rat) (recs : List Record) (r : Record),
        r ∈ recs → f r = none → r ∉ rangeFilter f lo hi recs := by
  constructor
  · intro f lo hi recs r hr
    have hmem := (List.mem_filter.mp hr).2
    cases hf : f r with
    | none => rw [hf] at hmem; simp at hmem
    | some v =>
      rw [hf] at hmem
      simp at hmem
      exact ⟨v, rfl, hmem.1, hmem.2⟩
  · intro f lo hi recs r _ hf hmem
    have h2 := (List.mem_filter.mp hmem).2
    rw [hf] at h2
    simp at h2

/-- Witness for C10: a record with a missing lead time is excluded even
by the full range 0 to 100. -/
theorem C10_range_filter_missing_witness :
    recNoLead ∉ rangeFilter Record.leadTime 0 100 [recNoLead] :=
  (C10_range_filter_missing).2 Record.leadTime 0 100 [recNoLead] recNoLead
    (List.mem_singleton.mpr rfl) rfl
